import Mathlib

/-!
Shallow embedding of the serato-crates-sync repository
(`src/serato_crates_sync/cli.py`) for checking its specification.

Modelling conventions:
* Python `str` values are `List Char` (sequences of Unicode scalar values).
* Python `bytes` values are `List Nat`, every element below 256.
* Filesystem trees are an inductive type of named files and directories.
* The SQLite `container` / `serato` tables are an explicit record of rows;
  SQLite's deferred-transaction semantics (all statements of the `try:` block
  become visible only at the single `conn.commit()` at its end, and are
  discarded if an exception reaches the `except:` handler first) are modelled
  by a boolean failure flag on the writer.
* Python-stdlib calls that are not code of this repository
  (`unicodedata.normalize`, `Path.resolve`) are abstracted as parameters.
-/

namespace SeratoSync

/-- Python `str` modelled as a list of Unicode scalar values. -/
abbrev PyStr := List Char

/-! ## Filename sanitizer (`sanitize_crate_filename`, cli.py lines 463-502) -/

/-- Byte count of the UTF-8 encoding of one code point, as produced by
Python `str.encode` on a scalar value. -/
def utf8CharLen (c : Char) : Nat :=
  if c.toNat < 0x80 then 1
  else if c.toNat < 0x800 then 2
  else if c.toNat < 0x10000 then 3
  else 4

/-- Python `len(s.encode(..utf-8..))`. -/
def utf8Len (s : PyStr) : Nat := (s.map utf8CharLen).sum

/-- The string `invisible_chars` of `sanitize_crate_filename`:
zero-width space / non-joiner / joiner, LTR / RTL marks, BOM, soft hyphen. -/
def invisibleChars : PyStr :=
  [Char.ofNat 0x200b, Char.ofNat 0x200c, Char.ofNat 0x200d,
   Char.ofNat 0x200e, Char.ofNat 0x200f, Char.ofNat 0xfeff, Char.ofNat 0xad]

/-- The loop `for char in cs: filename = filename.replace(char, ...)` with the
empty replacement string: one character-removal pass per element of `cs`. -/
def removeChars (cs : PyStr) (s : PyStr) : PyStr :=
  cs.foldl (fun acc ch => acc.filter (fun c => c != ch)) s

/-- The characters replaced by a hyphen in `sanitize_crate_filename`. -/
def problematicChars : PyStr := ['/', '\\', ':', '*', '?', '"', '<', '>', '|']

/-- The loop `for char in cs: filename = filename.replace(char, ..hyphen..)`:
one substitution pass per element of `cs`. -/
def replaceWithHyphen (cs : PyStr) (s : PyStr) : PyStr :=
  cs.foldl (fun acc ch => acc.map (fun c => if c = ch then '-' else c)) s

/-- Code points stripped by Python `str.strip()` with no argument
(the Unicode whitespace set used by `str.isspace`). -/
def pyIsSpace (c : Char) : Bool :=
  let n := c.toNat
  (9 ≤ n && n ≤ 13) || (28 ≤ n && n ≤ 32) || n == 133 || n == 160 ||
  n == 0x1680 || (0x2000 ≤ n && n ≤ 0x200a) || n == 0x2028 || n == 0x2029 ||
  n == 0x202f || n == 0x205f || n == 0x3000

/-- Python `str.lstrip()`. -/
def pyLstrip (s : PyStr) : PyStr := s.dropWhile pyIsSpace

/-- Python `str.rstrip()`. -/
def pyRstrip (s : PyStr) : PyStr := (s.reverse.dropWhile pyIsSpace).reverse

/-- Python `str.strip()`: whitespace removed from both ends. -/
def pyStrip (s : PyStr) : PyStr := pyLstrip (pyRstrip s)

/-- Fueled form of the loop
`while len(filename.encode(..)) > max_bytes: filename = filename[:-1]`.
The fuel only bounds the iteration count; each iteration drops one whole
code point, so it never splits a multi-byte character. -/
def truncLoopAux : Nat → PyStr → Nat → PyStr
  | 0, s, _ => s
  | fuel + 1, s, maxB =>
    if utf8Len s > maxB then truncLoopAux fuel s.dropLast maxB else s

/-- The truncation loop of `sanitize_crate_filename`, run with enough fuel
(each iteration shortens the string, so `s.length` iterations suffice;
`truncLoop_step` below restates the loop's defining equation). -/
def truncLoop (s : PyStr) (maxB : Nat) : PyStr := truncLoopAux s.length s maxB

/-- The truncation indicator appended by `sanitize_crate_filename`
(HORIZONTAL ELLIPSIS, three bytes in UTF-8). -/
def ellipsisChar : Char := '…'

/-- `sanitize_crate_filename(filename, max_bytes)` from cli.py.  The call
`unicodedata.normalize(..NFC.., filename)` is a Python-stdlib function, not
code of this repository, and is abstracted as the parameter `nfc`. -/
def sanitize_crate_filename (nfc : PyStr → PyStr) (filename : PyStr) (max_bytes : Nat) : PyStr :=
  let f1 := removeChars invisibleChars filename
  let f2 := nfc f1
  let f3 := replaceWithHyphen problematicChars f2
  let f4 :=
    if utf8Len f3 > max_bytes then pyRstrip (truncLoop f3 max_bytes) ++ [ellipsisChar]
    else f3
  pyStrip f4

/-! ## Path resolver (`resolve_track_path`, cli.py lines 535-560) -/

/-- The `absolute` branch of `resolve_track_path`:
`str(track.resolve()).lstrip(..slash..)`.  The canonical path string produced
by `track.resolve()` is the input; `lstrip` with an argument removes every
leading character of the given set. -/
def resolve_track_path_absolute (resolved : PyStr) : PyStr :=
  resolved.dropWhile (fun c => c == '/')

/-- Modelled from the spec (refinement comparison for the path-resolver
claim): "strip exactly one leading path-separator character". -/
def stripOneLeadingSep (s : PyStr) : PyStr :=
  match s with
  | [] => []
  | c :: rest => if c = '/' then rest else c :: rest

/-! ## Binary crate codec (`write_crate_binary`, cli.py lines 619-662) -/

/-- Bytes of `struct.pack(..big-endian-uint32.., n)`. -/
def be32 (n : Nat) : List Nat :=
  [n / 2 ^ 24 % 256, n / 2 ^ 16 % 256, n / 2 ^ 8 % 256, n % 256]

/-- UTF-16 big-endian bytes of one code point, as produced by Python
`str.encode(..utf-16-be..)`: no byte-order mark, astral code points become
surrogate pairs. -/
def utf16beChar (c : Char) : List Nat :=
  let n := c.toNat
  if n < 0x10000 then [n / 256, n % 256]
  else
    let v := n - 0x10000
    let hi := 0xd800 + v / 0x400
    let lo := 0xdc00 + v % 0x400
    [hi / 256, hi % 256, lo / 256, lo % 256]

/-- `encode_string` from `write_crate_binary`: UTF-16BE, no null padding
is ever added by `str.encode`. -/
def encode_string (s : PyStr) : List Nat := (s.map utf16beChar).flatten

/-- `make_tag` from `write_crate_binary`: 4-byte ASCII tag name, 4-byte
big-endian payload length, payload. -/
def make_tag (tagName : PyStr) (data : List Nat) : List Nat :=
  tagName.map Char.toNat ++ be32 data.length ++ data

/-- The fixed version string written in the `vrsn` chunk. -/
def crateVersionString : PyStr := "1.0/Serato ScratchLive Crate".toList

/-- Tag name `vrsn`. -/
def vrsnTag : PyStr := "vrsn".toList

/-- Tag name `otrk`. -/
def otrkTag : PyStr := "otrk".toList

/-- Tag name `ptrk`. -/
def ptrkTag : PyStr := "ptrk".toList

/-- `write_crate_binary` from cli.py: the `chunks` list is built imperatively
(version chunk first, then one append per track of an `otrk` chunk wrapping a
`ptrk` chunk around the resolved path), and the file contents are the
concatenation of the chunks, nothing else. -/
def write_crate_binary (tracks : List PyStr) (resolve_path : PyStr → PyStr) : List Nat :=
  let chunks := [make_tag vrsnTag (encode_string crateVersionString)]
  let chunks := tracks.foldl
    (fun acc track =>
      acc ++ [make_tag otrkTag (make_tag ptrkTag (encode_string (resolve_path track)))])
    chunks
  chunks.flatten

/-- Modelled from the spec (refinement comparison for the codec claim):
one version chunk — 4-byte ASCII tag `vrsn`, 4-byte big-endian payload
length, fixed version string as UTF-16BE with no BOM and no terminator —
followed by exactly one `otrk` chunk per track in track-list order, each
`otrk` payload being exactly a `ptrk` chunk around the UTF-16BE resolved
path, with no trailing data. -/
def crateEncodingSpec (tracks : List PyStr) (resolve_path : PyStr → PyStr) : List Nat :=
  make_tag vrsnTag (encode_string crateVersionString) ++
    (tracks.map (fun track =>
      make_tag otrkTag (make_tag ptrkTag (encode_string (resolve_path track))))).flatten

/-! ## Filesystem model and tree builder (`build_crate_tree`, cli.py 94-144) -/

/-- Abstract filesystem entry: the part of `pathlib.Path` the tree builder
observes (`is_dir`, `is_file`, `name`, `iterdir`). -/
inductive FsEntry where
  | file (name : PyStr)
  | dir (name : PyStr) (entries : List FsEntry)

/-- Python `Path.name` of an entry. -/
def FsEntry.name : FsEntry → PyStr
  | .file n => n
  | .dir n _ => n

/-- Python `Path.is_dir()` of an entry. -/
def FsEntry.isDir : FsEntry → Bool
  | .file _ => false
  | .dir _ _ => true

/-- Lexicographic code-point order on strings, the order `sorted(...)` uses
on the (equal-prefix) paths of one directory's entries. -/
def pyStrLe : PyStr → PyStr → Bool
  | [], _ => true
  | _ :: _, [] => false
  | a :: s, b :: t =>
    if a.toNat < b.toNat then true
    else if b.toNat < a.toNat then false
    else pyStrLe s t

/-- Python `sorted(folder.iterdir())`: within one folder all entries share
the folder's path prefix, so this sorts by entry name. -/
def sortByName (entries : List FsEntry) : List FsEntry :=
  entries.mergeSort (fun a b => pyStrLe a.name b.name)

/-- Helper splitting a string at its last dot: `some (before, after)` when a
dot exists, where `s = before ++ dot ++ after` and `after` is dot-free. -/
def splitLastDot : PyStr → Option (PyStr × PyStr)
  | [] => none
  | c :: rest =>
    match splitLastDot rest with
    | some (b, a) => some (c :: b, a)
    | none => if c = '.' then some ([], rest) else none

/-- Python `PurePath.suffix`: the final dot-suffix of the name, empty when
the last dot is the first character or the last character, or there is no
dot. -/
def pySuffix (name : PyStr) : PyStr :=
  match splitLastDot name with
  | some (b, a) => if b.isEmpty || a.isEmpty then [] else '.' :: a
  | none => []

/-- `is_audio_file` from cli.py: `path.is_file() and path.suffix.lower() in
extensions`.  `Char.toLower` matches Python `str.lower` on the ASCII
extension strings involved. -/
def is_audio_file (entry : FsEntry) (extensions : List PyStr) : Bool :=
  match entry with
  | .file n => extensions.contains (List.map Char.toLower (pySuffix n))
  | .dir _ _ => false

/-- Path of a direct child of a folder (POSIX separator). -/
def fsChildPath (folderPath : PyStr) (n : PyStr) : PyStr := folderPath ++ '/' :: n

/-- `scan_folder_for_tracks` from cli.py: non-recursive, sorted scan
collecting the full paths of entries that are audio files.  `FsEntry` stores
only names, so the folder's own path is passed explicitly. -/
def scan_folder_for_tracks (folderPath : PyStr) (entries : List FsEntry)
    (extensions : List PyStr) : List PyStr :=
  (sortByName entries).filterMap
    (fun e => if is_audio_file e extensions then some (fsChildPath folderPath e.name) else none)

/-- The `CratePlan` dataclass of cli.py. -/
inductive CratePlan where
  | mk (name : PyStr) (path : PyStr) (parent_name : Option PyStr)
      (tracks : List PyStr) (children : List CratePlan)

/-- Field `name` of `CratePlan`. -/
def CratePlan.name : CratePlan → PyStr
  | .mk n _ _ _ _ => n

/-- Field `tracks` of `CratePlan`. -/
def CratePlan.tracks : CratePlan → List PyStr
  | .mk _ _ _ t _ => t

/-- Field `children` of `CratePlan`. -/
def CratePlan.children : CratePlan → List CratePlan
  | .mk _ _ _ _ c => c

/-- Python `name.startswith(..dot..)`. -/
def startsWithDot : PyStr → Bool
  | '.' :: _ => true
  | _ => false

/-- The hard-wired `%%` delimiter of `build_crate_tree` (cli.py line 126). -/
def treeDelim : PyStr := "%%".toList

/-- The `parent_name` value passed to child builds:
`crate_name if parent_name is None else parent_name + delim + crate_name`. -/
def childParentName (parent_name : Option PyStr) (crate_name : PyStr) : PyStr :=
  match parent_name with
  | none => crate_name
  | some p => p ++ treeDelim ++ crate_name

/-- Fueled body of `build_crate_tree` (the fuel only bounds recursion depth;
`sizeOf` of the folder suffices, see `buildAux_congr`).  A non-directory
yields `None`; otherwise the folder's audio files and the recursively built
children of its sorted, non-hidden subfolders are collected, and a node is
returned iff it has tracks or children or `include_empty` is set. -/
def buildAux : Nat → FsEntry → PyStr → List PyStr → Option PyStr → Bool → Option CratePlan
  | 0, _, _, _, _, _ => none
  | fuel + 1, folder, folderPath, extensions, parent_name, include_empty =>
    match folder with
    | .file _ => none
    | .dir crate_name entries =>
      let tracks := scan_folder_for_tracks folderPath entries extensions
      let children := (sortByName entries).filterMap (fun e =>
        if e.isDir && !startsWithDot e.name then
          buildAux fuel e (fsChildPath folderPath e.name) extensions
            (some (childParentName parent_name crate_name)) include_empty
        else none)
      if !tracks.isEmpty || !children.isEmpty || include_empty then
        some (.mk crate_name folderPath parent_name tracks children)
      else none

mutual

/-- Depth of a filesystem entry, used as recursion fuel for the builder. -/
def fsDepth : FsEntry → Nat
  | .file _ => 1
  | .dir _ entries => fsDepthList entries + 1

/-- Maximal depth among a list of entries. -/
def fsDepthList : List FsEntry → Nat
  | [] => 0
  | e :: rest => max (fsDepth e) (fsDepthList rest)

end

/-- `build_crate_tree` from cli.py, via `buildAux` with adequate fuel. -/
def build_crate_tree (folder : FsEntry) (folderPath : PyStr) (extensions : List PyStr)
    (parent_name : Option PyStr) (include_empty : Bool) : Option CratePlan :=
  buildAux (fsDepth folder) folder folderPath extensions parent_name include_empty

mutual

/-- The crate/track counting of `count_crates_and_tracks` for one node:
`(total_crates, total_tracks)`. -/
def countCrate : CratePlan → Nat × Nat
  | .mk _ _ _ tracks children =>
    let r := countCrateList children
    (1 + r.1, tracks.length + r.2)

/-- Crate/track totals over a list of nodes. -/
def countCrateList : List CratePlan → Nat × Nat
  | [] => (0, 0)
  | c :: rest =>
    let a := countCrate c
    let b := countCrateList rest
    (a.1 + b.1, a.2 + b.2)

end

/-- `count_crates_and_tracks` from cli.py. -/
def count_crates_and_tracks (crates : List CratePlan) : Nat × Nat :=
  countCrateList crates

/-! ## Relational writer (`write_crates_to_sqlite`, cli.py 709-821) -/

/-- One row of the `container` table, with the columns the writer touches. -/
structure ContainerRow where
  id : Nat
  revision : Nat
  parent_id : Nat
  name : PyStr
  type : Nat
  list_order : Nat
  time_added : Nat
  expanded : Nat
  portable_id : PyStr
deriving DecidableEq, Repr

/-- The two tables the writer reads and writes: the `container` rows in rowid
(insertion) order, the singleton `serato` table's `revision` counter, and the
next rowid SQLite will assign. -/
structure LibraryDb where
  containers : List ContainerRow
  revision : Nat
  next_rowid : Nat
deriving DecidableEq, Repr

/-- The existence lookup
`SELECT id FROM container WHERE parent_id = ? AND name = ? AND type = 1`
with `fetchone()`: first matching row in rowid order. -/
def findContainer (cs : List ContainerRow) (parent_id : Nat) (n : PyStr) :
    Option ContainerRow :=
  cs.find? (fun r => r.parent_id == parent_id && r.name == n && r.type == 1)

/-- The `display_name` built by `create_crate_recursive`:
`parent_prefix + delimiter + name` when the prefix is non-empty. -/
def displayNameOf (pre : PyStr) (delim : PyStr) (n : PyStr) : PyStr :=
  if pre.isEmpty then n else pre ++ delim ++ n

/-- The `portable_id` column value: `crate://` followed by the display name. -/
def crateUri (display : PyStr) : PyStr := "crate://".toList ++ display

/-- Result of `create_crate_recursive`: updated uncommitted state, the deltas
of the `crates_created` / `crates_skipped` counters (accumulated nonlocally
in the source), and the resolved crate id. -/
structure CrateResult where
  st : LibraryDb
  created : Nat
  skipped : Nat
  crate_id : Nat
deriving DecidableEq, Repr

/-- Result of processing a list of sibling crates. -/
structure CratesResult where
  st : LibraryDb
  created : Nat
  skipped : Nat
deriving DecidableEq, Repr

mutual

/-- `create_crate_recursive` from `write_crates_to_sqlite`: look the crate up
by `(parent_id, name, type=1)`; reuse the existing id and count a skip, or
insert a new row (bumping the in-memory revision, `lastrowid` as id) and
count a creation; then recurse into the children under the resolved id with
the display name as their prefix. -/
def create_crate_recursive (st : LibraryDb) (cp : CratePlan) (parent_id : Nat)
    (pre : PyStr) (list_order : Nat) (delim : PyStr) (now : Nat) : CrateResult :=
  match cp with
  | .mk n _ _ _ children =>
    let display := displayNameOf pre delim n
    match findContainer st.containers parent_id n with
    | some existing =>
      let r := create_crate_children st children existing.id display 1 delim now
      ⟨r.st, r.created, r.skipped + 1, existing.id⟩
    | none =>
      let rev := st.revision + 1
      let row : ContainerRow :=
        ⟨st.next_rowid, rev, parent_id, n, 1, list_order, now, 0, crateUri display⟩
      let st' : LibraryDb := ⟨st.containers ++ [row], rev, st.next_rowid + 1⟩
      let r := create_crate_children st' children row.id display 1 delim now
      ⟨r.st, r.created + 1, r.skipped, row.id⟩

/-- The loop `for child in crate_plan.children: create_crate_recursive(child,
crate_id, display_name, child_order); child_order += 1` (starting at 1). -/
def create_crate_children (st : LibraryDb) (cs : List CratePlan) (parent_id : Nat)
    (pre : PyStr) (child_order : Nat) (delim : PyStr) (now : Nat) : CratesResult :=
  match cs with
  | [] => ⟨st, 0, 0⟩
  | c :: rest =>
    let r := create_crate_recursive st c parent_id pre child_order delim now
    let r2 := create_crate_children r.st rest parent_id pre (child_order + 1) delim now
    ⟨r2.st, r.created + r2.created, r.skipped + r2.skipped⟩

end

/-- `SELECT COALESCE(MAX(list_order), 0) FROM container WHERE parent_id = 0`. -/
def maxRootListOrder (cs : List ContainerRow) : Nat :=
  cs.foldl (fun m r => if r.parent_id == 0 then max m r.list_order else m) 0

/-- The loop `for crate_plan in plan.crates: create_crate_recursive(crate_plan,
0, .., next_order); next_order += 1`. -/
def sync_loop (st : LibraryDb) (cs : List CratePlan) (next_order : Nat)
    (delim : PyStr) (now : Nat) : CratesResult :=
  match cs with
  | [] => ⟨st, 0, 0⟩
  | c :: rest =>
    let r := create_crate_recursive st c 0 [] next_order delim now
    let r2 := sync_loop r.st rest (next_order + 1) delim now
    ⟨r2.st, r.created + r2.created, r.skipped + r2.skipped⟩

/-- The body of the `try:` block of `write_crates_to_sqlite` up to and
including the single `conn.commit()`: read the revision (the state's
`revision` field), compute the next top-level `list_order`, create all
crates, and write the revision back. -/
def runSync (d : LibraryDb) (crates : List CratePlan) (delim : PyStr) (now : Nat) :
    CratesResult :=
  sync_loop d crates (maxRootListOrder d.containers + 1) delim now

/-- `write_crates_to_sqlite` from cli.py.  A missing database file returns
`(0, 0)` untouched.  `failure` models an exception raised by any statement of
the `try:` block before its final `conn.commit()`: the catch-all `except`
returns `(0, 0)` and the uncommitted transaction is discarded, so the
database is unchanged.  Otherwise every statement commits together. -/
def write_crates_to_sqlite (db : Option LibraryDb) (crates : List CratePlan)
    (delim : PyStr) (now : Nat) (failure : Bool) : Option LibraryDb × Nat × Nat :=
  match db with
  | none => (none, 0, 0)
  | some d =>
    if failure then (some d, 0, 0)
    else
      let r := runSync d crates delim now
      (some r.st, r.created, r.skipped)

mutual

/-- Invariant used for idempotence: a plan node is settled in a container
table when the existence lookup finds a row for it under its parent and all
its children are settled under that row's id. -/
def settled (cs : List ContainerRow) (cp : CratePlan) (parent_id : Nat) : Prop :=
  match cp with
  | .mk n _ _ _ children =>
    match findContainer cs parent_id n with
    | some r => settledChildren cs children r.id
    | none => False

/-- All nodes of a list are settled under the given parent id. -/
def settledChildren (cs : List ContainerRow) (l : List CratePlan) (parent_id : Nat) : Prop :=
  match l with
  | [] => True
  | c :: rest => settled cs c parent_id ∧ settledChildren cs rest parent_id

end

/-! ## Sync orchestrator (`execute_sync`, cli.py 824-877) -/

/-- Observable steps of `execute_sync`, in execution order. -/
inductive SyncAction where
  | backup
  | mkdirSubcrates
  | clean (deleted : Nat)
  | write (overwrite : Bool) (created : Nat) (skipped : Nat)
deriving DecidableEq, Repr

/-- Environment of `execute_sync`: outcomes of the filesystem collaborators.
`backupResult` is `backup_subcrates` (which may raise, e.g. from
`shutil.copytree`, or return an optional backup path); `cleanDeleted` is the
count returned by `clean_existing_crates`; `writeCounts` is
`write_crates_with_serato_crate` as a function of the overwrite flag it is
called with. -/
structure ExecEnv where
  backupResult : Except Unit (Option PyStr)
  cleanDeleted : Nat
  writeCounts : Bool → Nat × Nat

/-- `execute_sync` from cli.py: backup first (an exception there propagates),
ensure the Subcrates folder, clean only when requested, then write with
`overwrite=overwrite or clean`, and return `True`. -/
def execute_sync (env : ExecEnv) (overwrite : Bool) (clean : Bool) :
    Except Unit (Bool × List SyncAction) :=
  match env.backupResult with
  | .error e => .error e
  | .ok _ =>
    let acts := [SyncAction.backup, SyncAction.mkdirSubcrates]
    let acts := if clean then acts ++ [SyncAction.clean env.cleanDeleted] else acts
    let counts := env.writeCounts (overwrite || clean)
    .ok (true, acts ++ [SyncAction.write (overwrite || clean) counts.1 counts.2])

/-! ## Helper lemmas on lists and strings -/

theorem filterMap_ext {α β : Type} (f g : α → Option β) :
    ∀ l : List α, (∀ a ∈ l, f a = g a) → l.filterMap f = l.filterMap g := by
  intro l h
  induction l with
  | nil => rfl
  | cons a t ih =>
    simp only [List.filterMap_cons]
    rw [h a (by simp)]
    cases g a <;> simp [ih (fun x hx => h x (by simp [hx]))]

theorem dropWhile_head_false {α : Type} {p : α → Bool} :
    ∀ {l : List α} {c : α} {rest : List α}, l.dropWhile p = c :: rest → p c = false := by
  intro l
  induction l with
  | nil => intro c rest h; simp [List.dropWhile] at h
  | cons a t ih =>
    intro c rest h
    by_cases hp : p a
    · rw [List.dropWhile_cons_of_pos hp] at h
      exact ih h
    · rw [List.dropWhile_cons_of_neg hp] at h
      injection h with h1 h2
      subst h1
      simpa using hp

theorem dropWhile_idem {α : Type} (p : α → Bool) (l : List α) :
    (l.dropWhile p).dropWhile p = l.dropWhile p := by
  cases h : l.dropWhile p with
  | nil => simp
  | cons c rest =>
    rw [List.dropWhile_cons_of_neg]
    simp [dropWhile_head_false h]

theorem dropWhile_eq_self_of_head {α : Type} {p : α → Bool} {l : List α}
    (h : ∀ c, l.head? = some c → p c = false) : l.dropWhile p = l := by
  cases l with
  | nil => rfl
  | cons a t =>
    rw [List.dropWhile_cons_of_neg]
    simp [h a rfl]

theorem dropWhile_eq_self_head {α : Type} {p : α → Bool} {l : List α}
    (h : l.dropWhile p = l) : ∀ c, l.head? = some c → p c = false := by
  intro c hc
  cases l with
  | nil => simp at hc
  | cons a t =>
    have hac : a = c := by simpa using hc
    by_cases hp : p a
    · exfalso
      rw [List.dropWhile_cons_of_pos hp] at h
      have hlen := congrArg List.length h
      have hsub := List.Sublist.length_le (List.dropWhile_sublist (l := t) p)
      simp at hlen
      omega
    · rw [← hac]
      simpa using hp

/-! ## Lemmas about the sanitizer's string operations -/

theorem pyLstrip_idem (s : PyStr) : pyLstrip (pyLstrip s) = pyLstrip s :=
  dropWhile_idem pyIsSpace s

theorem pyRstrip_idem (s : PyStr) : pyRstrip (pyRstrip s) = pyRstrip s := by
  unfold pyRstrip
  rw [List.reverse_reverse, dropWhile_idem]

theorem pyLstrip_sublist (s : PyStr) : (pyLstrip s).Sublist s :=
  List.dropWhile_sublist pyIsSpace

theorem pyRstrip_sublist (s : PyStr) : (pyRstrip s).Sublist s := by
  have h := (List.dropWhile_sublist (l := s.reverse) pyIsSpace).reverse
  rwa [List.reverse_reverse] at h

theorem pyStrip_sublist (s : PyStr) : (pyStrip s).Sublist s :=
  (pyLstrip_sublist _).trans (pyRstrip_sublist _)

theorem pyRstrip_append_nonspace {c : Char} (w : PyStr) (h : pyIsSpace c = false) :
    pyRstrip (w ++ [c]) = w ++ [c] := by
  unfold pyRstrip
  rw [List.reverse_append]
  simp only [List.reverse_cons, List.reverse_nil, List.nil_append, List.singleton_append]
  rw [List.dropWhile_cons_of_neg (by simp [h])]
  simp

theorem pyLstrip_append_nonspace {c : Char} (w : PyStr) (h : pyIsSpace c = false) :
    pyLstrip (w ++ [c]) = pyLstrip w ++ [c] := by
  unfold pyLstrip
  induction w with
  | nil =>
    simp only [List.nil_append, List.dropWhile_nil]
    rw [List.dropWhile_cons_of_neg (by simp [h])]
  | cons a t ih =>
    by_cases hp : pyIsSpace a
    · rw [List.cons_append, List.dropWhile_cons_of_pos hp, List.dropWhile_cons_of_pos hp]
      exact ih
    · rw [List.cons_append, List.dropWhile_cons_of_neg hp, List.dropWhile_cons_of_neg hp]
      simp

theorem pyRstrip_eq_self_iff {s : PyStr} :
    pyRstrip s = s ↔ s.reverse.dropWhile pyIsSpace = s.reverse := by
  unfold pyRstrip
  constructor
  · intro h
    have := congrArg List.reverse h
    rwa [List.reverse_reverse] at this
  · intro h
    rw [h, List.reverse_reverse]

theorem pyRstrip_pyLstrip_of_rstripped {s : PyStr} (h : pyRstrip s = s) :
    pyRstrip (pyLstrip s) = pyLstrip s := by
  rw [pyRstrip_eq_self_iff]
  apply dropWhile_eq_self_of_head
  intro c hc
  rw [List.head?_reverse] at hc
  have hsuf : ∃ pre, pre ++ pyLstrip s = s := by
    obtain ⟨pre, hp⟩ := List.dropWhile_suffix (l := s) pyIsSpace
    exact ⟨pre, hp⟩
  obtain ⟨pre, hp⟩ := hsuf
  have hne : pyLstrip s ≠ [] := by
    intro he
    rw [he] at hc
    simp at hc
  have hlast : s.getLast? = some c := by
    rw [← hp, List.getLast?_append_of_ne_nil pre hne]
    exact hc
  have hrev : s.reverse.head? = some c := by rwa [List.head?_reverse]
  exact dropWhile_eq_self_head (pyRstrip_eq_self_iff.mp h) c hrev

theorem pyStrip_idem (s : PyStr) : pyStrip (pyStrip s) = pyStrip s := by
  unfold pyStrip
  rw [pyRstrip_pyLstrip_of_rstripped (pyRstrip_idem s), pyLstrip_idem]

theorem pyStrip_append_nonspace {c : Char} (w : PyStr) (h : pyIsSpace c = false) :
    pyStrip (w ++ [c]) = pyLstrip w ++ [c] := by
  unfold pyStrip
  rw [pyRstrip_append_nonspace w h, pyLstrip_append_nonspace w h]

/-! ## Lemmas about UTF-8 byte length and the truncation loop -/

theorem utf8Len_append (a b : PyStr) : utf8Len (a ++ b) = utf8Len a + utf8Len b := by
  simp [utf8Len]

theorem utf8Len_sublist_le {s t : PyStr} (h : s.Sublist t) : utf8Len s ≤ utf8Len t := by
  induction h with
  | slnil => exact le_rfl
  | cons a _ ih => simp only [utf8Len, List.map_cons, List.sum_cons] at *; omega
  | cons₂ a _ ih => simp only [utf8Len, List.map_cons, List.sum_cons] at *; omega

theorem truncLoopAux_le :
    ∀ (fuel : Nat) (s : PyStr) (maxB : Nat), s.length ≤ fuel →
      utf8Len (truncLoopAux fuel s maxB) ≤ maxB := by
  intro fuel
  induction fuel with
  | zero =>
    intro s maxB hl
    obtain rfl : s = [] := List.length_eq_zero.mp (Nat.le_zero.mp hl)
    simp [truncLoopAux, utf8Len]
  | succ n ih =>
    intro s maxB hl
    by_cases h : utf8Len s > maxB
    · have hne : s ≠ [] := by
        intro he
        subst he
        simp [utf8Len] at h
      have hlen : s.dropLast.length ≤ n := by
        rw [List.length_dropLast]
        have : 0 < s.length := List.length_pos.mpr hne
        omega
      simpa [truncLoopAux, h] using ih s.dropLast maxB hlen
    · simpa [truncLoopAux, h] using Nat.le_of_not_lt h

theorem truncLoop_le (s : PyStr) (maxB : Nat) : utf8Len (truncLoop s maxB) ≤ maxB :=
  truncLoopAux_le s.length s maxB le_rfl

theorem truncLoopAux_sublist :
    ∀ (fuel : Nat) (s : PyStr) (maxB : Nat), (truncLoopAux fuel s maxB).Sublist s := by
  intro fuel
  induction fuel with
  | zero => intro s maxB; exact List.Sublist.refl s
  | succ n ih =>
    intro s maxB
    by_cases h : utf8Len s > maxB
    · simpa [truncLoopAux, h] using (ih s.dropLast maxB).trans (List.dropLast_sublist s)
    · simp [truncLoopAux, h]

theorem truncLoop_sublist (s : PyStr) (maxB : Nat) : (truncLoop s maxB).Sublist s :=
  truncLoopAux_sublist s.length s maxB

theorem truncLoop_eq_self {s : PyStr} {maxB : Nat} (h : ¬ utf8Len s > maxB) :
    truncLoop s maxB = s := by
  unfold truncLoop
  cases s.length with
  | zero => rfl
  | succ n => simp [truncLoopAux, h]

theorem truncLoop_step (s : PyStr) (maxB : Nat) :
    truncLoop s maxB = if utf8Len s > maxB then truncLoop s.dropLast maxB else s := by
  by_cases h : utf8Len s > maxB
  · rw [if_pos h]
    have hne : s ≠ [] := by
      intro he
      subst he
      simp [utf8Len] at h
    unfold truncLoop
    cases hl : s.length with
    | zero => exact absurd (List.length_eq_zero.mp hl) hne
    | succ n =>
      have hdl : s.dropLast.length = n := by
        rw [List.length_dropLast, hl]
        omega
      simp only [truncLoopAux, if_pos h, hdl]
  · rw [if_neg h, truncLoop_eq_self h]

theorem utf8Len_ellipsis : utf8Len [ellipsisChar] = 3 := by decide

/-! ## Claim C1: sanitizer byte budget -/

set_option maxRecDepth 8000 in
/-- Counterexample for claim C1 (sanitize output within `maxBytes`): on 241
copies of the ASCII letter a with the default budget 240, the code keeps 240
bytes and then appends the three-byte ellipsis, producing 243 bytes.  NFC
normalization is the identity on this all-ASCII input, so instantiating the
abstracted `nfc` parameter with `id` is faithful. -/
theorem sanitize_budget_cex :
    240 < utf8Len (sanitize_crate_filename id (List.replicate 241 'a') 240) := by decide

/-- Claim C1 as amended: the sanitizer's output is within `maxBytes` plus the
three UTF-8 bytes of the appended ellipsis (the truncation loop itself stays
within budget; the ellipsis appended afterwards can push the result up to
three bytes over). -/
theorem sanitize_le_budget_plus_ellipsis (nfc : PyStr → PyStr) (x : PyStr) (maxB : Nat) :
    utf8Len (sanitize_crate_filename nfc x maxB) ≤ maxB + 3 := by
  have hstep : ∀ f3 : PyStr,
      utf8Len (pyStrip (if utf8Len f3 > maxB
        then pyRstrip (truncLoop f3 maxB) ++ [ellipsisChar] else f3)) ≤ maxB + 3 := by
    intro f3
    by_cases h : utf8Len f3 > maxB
    · rw [if_pos h]
      calc utf8Len (pyStrip (pyRstrip (truncLoop f3 maxB) ++ [ellipsisChar]))
          ≤ utf8Len (pyRstrip (truncLoop f3 maxB) ++ [ellipsisChar]) :=
            utf8Len_sublist_le (pyStrip_sublist _)
        _ = utf8Len (pyRstrip (truncLoop f3 maxB)) + 3 := by
            rw [utf8Len_append, utf8Len_ellipsis]
        _ ≤ maxB + 3 := by
            have h1 := utf8Len_sublist_le (pyRstrip_sublist (truncLoop f3 maxB))
            have h2 := truncLoop_le f3 maxB
            omega
    · rw [if_neg h]
      have h1 := utf8Len_sublist_le (pyStrip_sublist f3)
      omega
  exact hstep (replaceWithHyphen problematicChars (nfc (removeChars invisibleChars x)))

/-! ## Claim C2: absolute path mode -/

/-- Claim C2: on canonical paths (which begin with at most one separator, the
hypothesis below), the `absolute` mode removes exactly the leading slash when
one is present — `lstrip` and strip-exactly-one agree there — and the stored
string never begins with a slash. -/
theorem resolve_absolute_strips_leading_sep (resolved : PyStr)
    (hcanon : ∀ rest, resolved = '/' :: rest → rest.head? ≠ some '/') :
    (resolve_track_path_absolute resolved).head? ≠ some '/' ∧
      resolve_track_path_absolute resolved = stripOneLeadingSep resolved := by
  unfold resolve_track_path_absolute stripOneLeadingSep
  cases resolved with
  | nil => simp
  | cons a rest =>
    by_cases ha : a = '/'
    · subst ha
      have hr : rest.dropWhile (fun c => c == '/') = rest := by
        apply dropWhile_eq_self_of_head
        intro c hc
        have hcne : c ≠ '/' := by
          intro he
          exact hcanon rest rfl (he ▸ hc)
        simpa using hcne
      rw [List.dropWhile_cons_of_pos (by simp), hr]
      constructor
      · intro hcontra
        exact hcanon rest rfl hcontra
      · simp
    · rw [List.dropWhile_cons_of_neg (by simpa using ha)]
      constructor
      · simpa using ha
      · simp [ha]

/-- Witness for C2 at the canonical path `/ab`. -/
theorem resolve_absolute_strips_leading_sep_w :
    resolve_track_path_absolute ['/', 'a', 'b'] = stripOneLeadingSep ['/', 'a', 'b'] :=
  (resolve_absolute_strips_leading_sep ['/', 'a', 'b']
    (by
      intro rest h
      injection h with h1 h2
      subst h2
      decide)).2

/-! ## Claim C4: binary crate encoding -/

theorem foldl_append_eq_map {α β : Type} (g : α → β) (l : List α) :
    ∀ init : List β, l.foldl (fun acc t => acc ++ [g t]) init = init ++ l.map g := by
  induction l with
  | nil => intro init; simp
  | cons a t ih => intro init; simp [ih]

/-- Claim C4: the binary writer produces exactly the spec's layout — version
chunk, then one `otrk`-wrapping-`ptrk` chunk per track in order, nothing
else. -/
theorem write_crate_binary_matches_spec (tracks : List PyStr)
    (resolve_path : PyStr → PyStr) :
    write_crate_binary tracks resolve_path = crateEncodingSpec tracks resolve_path := by
  unfold write_crate_binary crateEncodingSpec
  simp [foldl_append_eq_map]

/-! ## Claim C8: sanitizer idempotence -/

theorem removeChars_cons (c : Char) (cs s : PyStr) :
    removeChars (c :: cs) s = removeChars cs (s.filter (fun x => x != c)) := rfl

theorem mem_removeChars {cs s : PyStr} {a : Char} :
    a ∈ removeChars cs s ↔ a ∈ s ∧ a ∉ cs := by
  induction cs generalizing s with
  | nil => simp [removeChars]
  | cons c cs ih =>
    rw [removeChars_cons, ih]
    simp only [List.mem_filter, bne_iff_ne, List.mem_cons]
    constructor
    · rintro ⟨⟨h1, h2⟩, h3⟩
      exact ⟨h1, by simp [h2, h3]⟩
    · rintro ⟨h1, h2⟩
      simp only [not_or] at h2
      exact ⟨⟨h1, h2.1⟩, h2.2⟩

theorem removeChars_eq_self {cs s : PyStr} (h : ∀ a ∈ s, a ∉ cs) :
    removeChars cs s = s := by
  induction cs generalizing s with
  | nil => rfl
  | cons c cs ih =>
    rw [removeChars_cons]
    have hf : s.filter (fun x => x != c) = s := by
      apply List.filter_eq_self.mpr
      intro a ha
      have := h a ha
      simp only [List.mem_cons, not_or] at this
      simp [bne_iff_ne, this.1]
    rw [hf]
    apply ih
    intro a ha hin
    exact h a ha (by simp [hin])

theorem replaceWithHyphen_cons (c : Char) (cs s : PyStr) :
    replaceWithHyphen (c :: cs) s
      = replaceWithHyphen cs (s.map (fun x => if x = c then '-' else x)) := rfl

theorem mem_replaceWithHyphen {cs s : PyStr} {a : Char}
    (h : a ∈ replaceWithHyphen cs s) : a = '-' ∨ (a ∈ s ∧ a ∉ cs) := by
  induction cs generalizing s with
  | nil => right; simpa [replaceWithHyphen] using h
  | cons c cs ih =>
    rw [replaceWithHyphen_cons] at h
    rcases ih h with h1 | ⟨hmem, hnotin⟩
    · exact Or.inl h1
    · rcases List.mem_map.mp hmem with ⟨b, hb, hfb⟩
      by_cases hbc : b = c
      · left
        rw [if_pos hbc] at hfb
        exact hfb.symm
      · right
        rw [if_neg hbc] at hfb
        subst hfb
        exact ⟨hb, by simp [hbc, hnotin]⟩

theorem replaceWithHyphen_eq_self {cs s : PyStr} (h : ∀ a ∈ s, a ∉ cs) :
    replaceWithHyphen cs s = s := by
  induction cs generalizing s with
  | nil => rfl
  | cons c cs ih =>
    rw [replaceWithHyphen_cons]
    have hm : s.map (fun x => if x = c then '-' else x) = s := by
      have hcongr : ∀ a ∈ s, (if a = c then '-' else a) = a := by
        intro a ha
        have := h a ha
        simp only [List.mem_cons, not_or] at this
        rw [if_neg this.1]
      calc s.map (fun x => if x = c then '-' else x) = s.map id := List.map_congr_left hcongr
        _ = s := List.map_id s
    rw [hm]
    apply ih
    intro a ha hin
    exact h a ha (by simp [hin])

/-- Claim C8: the sanitizer is idempotent at the default budget 240.  The
two hypotheses are the facts about Unicode NFC normalization this relies on
(both standard Unicode guarantees, stated for the abstracted `nfc`):
normalization introduces no invisible characters, and the sanitizer's output
is already normalized (its fixed point). -/
theorem sanitize_idempotent (nfc : PyStr → PyStr) (x : PyStr)
    (hinv : ∀ s : PyStr, (∀ c ∈ s, c ∉ invisibleChars) → ∀ c ∈ nfc s, c ∉ invisibleChars)
    (hfix : nfc (sanitize_crate_filename nfc x 240) = sanitize_crate_filename nfc x 240) :
    sanitize_crate_filename nfc (sanitize_crate_filename nfc x 240) 240
      = sanitize_crate_filename nfc x 240 := by
  have hy_eq : sanitize_crate_filename nfc x 240
      = pyStrip (if utf8Len (replaceWithHyphen problematicChars (nfc (removeChars invisibleChars x))) > 240
          then pyRstrip (truncLoop (replaceWithHyphen problematicChars (nfc (removeChars invisibleChars x))) 240)
            ++ [ellipsisChar]
          else replaceWithHyphen problematicChars (nfc (removeChars invisibleChars x))) := rfl
  set f3x := replaceWithHyphen problematicChars (nfc (removeChars invisibleChars x)) with hf3x
  set y := sanitize_crate_filename nfc x 240 with hydef
  have hchar : ∀ c ∈ y, c ∈ f3x ∨ c = ellipsisChar := by
    intro c hc
    have hc4 := (pyStrip_sublist _).subset (hy_eq ▸ hc)
    by_cases h : utf8Len f3x > 240
    · rw [if_pos h] at hc4
      rcases List.mem_append.mp hc4 with h5 | h5
      · exact Or.inl (((pyRstrip_sublist _).trans (truncLoop_sublist _ _)).subset h5)
      · right; simpa using h5
    · rw [if_neg h] at hc4
      exact Or.inl hc4
  have hyinv : ∀ c ∈ y, c ∉ invisibleChars := by
    intro c hc
    rcases hchar c hc with hf | rfl
    · rw [hf3x] at hf
      rcases mem_replaceWithHyphen hf with rfl | ⟨hmem, -⟩
      · decide
      · exact hinv (removeChars invisibleChars x)
          (fun a ha => (mem_removeChars.mp ha).2) c hmem
    · decide
  have hybad : ∀ c ∈ y, c ∉ problematicChars := by
    intro c hc
    rcases hchar c hc with hf | rfl
    · rw [hf3x] at hf
      rcases mem_replaceWithHyphen hf with rfl | ⟨-, hnotin⟩
      · decide
      · exact hnotin
    · decide
  have h1 : removeChars invisibleChars y = y := removeChars_eq_self hyinv
  have hbadeq : replaceWithHyphen problematicChars y = y := replaceWithHyphen_eq_self hybad
  have hlhs : sanitize_crate_filename nfc y 240
      = pyStrip (if utf8Len (replaceWithHyphen problematicChars (nfc (removeChars invisibleChars y))) > 240
          then pyRstrip (truncLoop (replaceWithHyphen problematicChars (nfc (removeChars invisibleChars y))) 240)
            ++ [ellipsisChar]
          else replaceWithHyphen problematicChars (nfc (removeChars invisibleChars y))) := rfl
  rw [h1, hfix, hbadeq] at hlhs
  have hstrip_y : pyStrip y = y := by
    conv_lhs => rw [hy_eq]
    rw [pyStrip_idem]
    exact hy_eq.symm
  by_cases hlen : utf8Len y > 240
  · have hf3len : utf8Len f3x > 240 := by
      by_contra hno
      rw [hy_eq, if_neg hno] at hlen
      exact absurd (utf8Len_sublist_le (pyStrip_sublist f3x)) (by omega)
    set t := truncLoop f3x 240 with ht
    set w := pyRstrip t with hw
    set u := pyLstrip w with hu
    have hy2 : y = u ++ [ellipsisChar] := by
      rw [hy_eq, if_pos hf3len]
      exact pyStrip_append_nonspace w (by decide)
    have hu_len : utf8Len u ≤ 240 := by
      have hs : u.Sublist t := by
        rw [hu, hw]
        exact (pyLstrip_sublist _).trans (pyRstrip_sublist _)
      exact (utf8Len_sublist_le hs).trans (by rw [ht]; exact truncLoop_le f3x 240)
    have hwr : pyRstrip w = w := by
      rw [hw]
      exact pyRstrip_idem t
    have hu_rstrip : pyRstrip u = u := by
      rw [hu]
      exact pyRstrip_pyLstrip_of_rstripped hwr
    have htr : truncLoop y 240 = u := by
      rw [truncLoop_step, if_pos hlen, hy2]
      have hdrop : (u ++ [ellipsisChar]).dropLast = u := by simp
      rw [hdrop]
      exact truncLoop_eq_self (by omega)
    rw [hlhs, if_pos hlen, htr, hu_rstrip, ← hy2]
    exact hstrip_y
  · rw [hlhs, if_neg hlen]
    exact hstrip_y

set_option maxRecDepth 8000 in
/-- Witness for C8 at an input long enough that the first pass truncates and
appends the ellipsis (`nfc` instantiated with the identity, which satisfies
both NFC hypotheses trivially). -/
theorem sanitize_idempotent_w :
    sanitize_crate_filename id (sanitize_crate_filename id (List.replicate 300 'a') 240) 240
      = sanitize_crate_filename id (List.replicate 300 'a') 240 :=
  sanitize_idempotent id (List.replicate 300 'a') (fun _ h => h) rfl

/-! ## Claim C9: tree-builder inclusion condition -/

theorem buildAux_file (fuel : Nat) (m : PyStr) (fp : PyStr) (exts : List PyStr)
    (pn : Option PyStr) (ie : Bool) : buildAux fuel (.file m) fp exts pn ie = none := by
  cases fuel <;> rfl

theorem mem_sortByName {e : FsEntry} {es : List FsEntry} :
    e ∈ sortByName es ↔ e ∈ es := by
  simp [sortByName, List.mem_mergeSort]

theorem fsDepth_le_list (es : List FsEntry) (e : FsEntry) (h : e ∈ es) :
    fsDepth e ≤ fsDepthList es := by
  induction es with
  | nil => simp at h
  | cons a t ih =>
    rcases List.mem_cons.mp h with rfl | ht
    · exact le_max_left _ _
    · exact (ih ht).trans (le_max_right _ _)

theorem buildAux_congr : ∀ (f₁ : Nat) (folder : FsEntry) (f₂ : Nat) (fp : PyStr)
    (exts : List PyStr) (pn : Option PyStr) (ie : Bool),
    fsDepth folder ≤ f₁ → fsDepth folder ≤ f₂ →
    buildAux f₁ folder fp exts pn ie = buildAux f₂ folder fp exts pn ie := by
  intro f₁
  induction f₁ using Nat.strong_induction_on with
  | _ f₁ ih =>
    intro folder f₂ fp exts pn ie h1 h2
    cases folder with
    | file m => rw [buildAux_file, buildAux_file]
    | dir n es =>
      have hd : fsDepth (FsEntry.dir n es) = fsDepthList es + 1 := rfl
      rw [hd] at h1 h2
      cases f₁ with
      | zero => omega
      | succ a =>
        cases f₂ with
        | zero => omega
        | succ b =>
          simp only [buildAux]
          have hch : (sortByName es).filterMap (fun e =>
                if e.isDir && !startsWithDot e.name then
                  buildAux a e (fsChildPath fp e.name) exts
                    (some (childParentName pn n)) ie
                else none)
              = (sortByName es).filterMap (fun e =>
                if e.isDir && !startsWithDot e.name then
                  buildAux b e (fsChildPath fp e.name) exts
                    (some (childParentName pn n)) ie
                else none) := by
            apply filterMap_ext
            intro e he
            have hee : e ∈ es := mem_sortByName.mp he
            have hde : fsDepth e ≤ fsDepthList es := fsDepth_le_list es e hee
            by_cases hg : (e.isDir && !startsWithDot e.name) = true
            · rw [if_pos hg, if_pos hg]
              exact ih a (by omega) e b _ _ _ _ (by omega) (by omega)
            · rw [if_neg hg, if_neg hg]
          rw [hch]

/-- One-level unfolding of `build_crate_tree` on a directory, with the
children built by `build_crate_tree` itself. -/
theorem build_crate_tree_dir (n : PyStr) (es : List FsEntry) (fp : PyStr)
    (exts : List PyStr) (pn : Option PyStr) (ie : Bool) :
    build_crate_tree (.dir n es) fp exts pn ie =
      if !(scan_folder_for_tracks fp es exts).isEmpty
          || !((sortByName es).filterMap (fun e =>
                if e.isDir && !startsWithDot e.name then
                  build_crate_tree e (fsChildPath fp e.name) exts
                    (some (childParentName pn n)) ie
                else none)).isEmpty
          || ie then
        some (.mk n fp pn (scan_folder_for_tracks fp es exts)
          ((sortByName es).filterMap (fun e =>
            if e.isDir && !startsWithDot e.name then
              build_crate_tree e (fsChildPath fp e.name) exts
                (some (childParentName pn n)) ie
            else none)))
      else none := by
  unfold build_crate_tree
  have hd : fsDepth (FsEntry.dir n es) = fsDepthList es + 1 := rfl
  rw [hd]
  simp only [buildAux]
  have hch : (sortByName es).filterMap (fun e =>
        if e.isDir && !startsWithDot e.name then
          buildAux (fsDepthList es) e (fsChildPath fp e.name) exts
            (some (childParentName pn n)) ie
        else none)
      = (sortByName es).filterMap (fun e =>
        if e.isDir && !startsWithDot e.name then
          buildAux (fsDepth e) e (fsChildPath fp e.name) exts
            (some (childParentName pn n)) ie
        else none) := by
    apply filterMap_ext
    intro e he
    have hde : fsDepth e ≤ fsDepthList es := fsDepth_le_list es e (mem_sortByName.mp he)
    by_cases hg : (e.isDir && !startsWithDot e.name) = true
    · rw [if_pos hg, if_pos hg]
      exact buildAux_congr (fsDepthList es) e (fsDepth e) _ _ _ _ hde le_rfl
    · rw [if_neg hg, if_neg hg]
  rw [hch]

theorem isSome_if_guard {α : Type} (c : Bool) (v : α) :
    (if c = true then some v else none).isSome = c := by
  cases c <;> simp

theorem isSome_if_opt {α : Type} (c : Bool) (v : Option α) :
    (if c = true then v else none).isSome = (c && v.isSome) := by
  cases c <;> simp

theorem filterMap_ne_nil_iff {α β : Type} (f : α → Option β) (l : List α) :
    (l.filterMap f).isEmpty = false ↔ ∃ a ∈ l, (f a).isSome = true := by
  induction l with
  | nil => simp
  | cons a t ih => cases hf : f a <;> simp [List.filterMap_cons, hf, ih]

/-- Claim C9: a directory yields a tree node iff it has at least one
audio-file entry, at least one qualifying (non-hidden, itself node-yielding)
subdirectory, or the include-empty flag is set. -/
theorem build_crate_tree_node_iff (n : PyStr) (es : List FsEntry) (fp : PyStr)
    (exts : List PyStr) (pn : Option PyStr) (ie : Bool) :
    (build_crate_tree (.dir n es) fp exts pn ie).isSome = true ↔
      (∃ e ∈ es, is_audio_file e exts = true) ∨
      (∃ e ∈ es, e.isDir = true ∧ startsWithDot e.name = false ∧
        (build_crate_tree e (fsChildPath fp e.name) exts
          (some (childParentName pn n)) ie).isSome = true) ∨
      ie = true := by
  rw [build_crate_tree_dir, isSome_if_guard]
  have htracks : (!(scan_folder_for_tracks fp es exts).isEmpty) = true ↔
      ∃ e ∈ es, is_audio_file e exts = true := by
    rw [Bool.not_eq_true', scan_folder_for_tracks, filterMap_ne_nil_iff]
    constructor
    · rintro ⟨e, he, hsome⟩
      refine ⟨e, mem_sortByName.mp he, ?_⟩
      rw [isSome_if_guard] at hsome
      exact hsome
    · rintro ⟨e, he, haud⟩
      exact ⟨e, mem_sortByName.mpr he, by rw [isSome_if_guard]; exact haud⟩
  have hchildren : (!((sortByName es).filterMap (fun e =>
        if e.isDir && !startsWithDot e.name then
          build_crate_tree e (fsChildPath fp e.name) exts
            (some (childParentName pn n)) ie
        else none)).isEmpty) = true ↔
      ∃ e ∈ es, e.isDir = true ∧ startsWithDot e.name = false ∧
        (build_crate_tree e (fsChildPath fp e.name) exts
          (some (childParentName pn n)) ie).isSome = true := by
    rw [Bool.not_eq_true', filterMap_ne_nil_iff]
    constructor
    · rintro ⟨e, he, hsome⟩
      rw [isSome_if_opt, Bool.and_eq_true, Bool.and_eq_true] at hsome
      exact ⟨e, mem_sortByName.mp he, hsome.1.1,
        by simpa using hsome.1.2, hsome.2⟩
    · rintro ⟨e, he, hdir, hdot, hsome⟩
      refine ⟨e, mem_sortByName.mpr he, ?_⟩
      rw [isSome_if_opt, Bool.and_eq_true, Bool.and_eq_true]
      exact ⟨⟨hdir, by simp [hdot]⟩, hsome⟩
  rw [Bool.or_eq_true, Bool.or_eq_true]
  rw [htracks, hchildren, or_assoc]

/-! ## Lemmas about the relational writer's lookup -/

theorem findContainer_exact {cs : List ContainerRow} {p : Nat} {n : PyStr}
    {r : ContainerRow} (h : findContainer cs p n = some r) :
    r.parent_id = p ∧ r.name = n ∧ r.type = 1 := by
  have hp := List.find?_some h
  simp only [Bool.and_eq_true, beq_iff_eq] at hp
  exact ⟨hp.1.1, hp.1.2, hp.2⟩

theorem find?_cons_pos' {α : Type} (q : α → Bool) (a : α) (l : List α) (h : q a = true) :
    List.find? q (a :: l) = some a :=
  List.find?_cons_of_pos l h

theorem find?_cons_neg' {α : Type} (q : α → Bool) (a : α) (l : List α) (h : ¬ q a = true) :
    List.find? q (a :: l) = List.find? q l :=
  List.find?_cons_of_neg l h

theorem findContainer_append_some {cs ds : List ContainerRow} {p : Nat} {n : PyStr}
    {r : ContainerRow} (h : findContainer cs p n = some r) :
    findContainer (cs ++ ds) p n = some r := by
  induction cs with
  | nil => simp [findContainer, List.find?] at h
  | cons a t ih =>
    unfold findContainer at h ⊢
    by_cases ha : (a.parent_id == p && a.name == n && a.type == 1) = true
    · rw [find?_cons_pos' (fun r => r.parent_id == p && r.name == n && r.type == 1) a t ha]
        at h
      rw [List.cons_append,
        find?_cons_pos' (fun r => r.parent_id == p && r.name == n && r.type == 1) a
          (t ++ ds) ha]
      exact h
    · rw [find?_cons_neg' (fun r => r.parent_id == p && r.name == n && r.type == 1) a t ha]
        at h
      rw [List.cons_append,
        find?_cons_neg' (fun r => r.parent_id == p && r.name == n && r.type == 1) a
          (t ++ ds) ha]
      exact ih h

theorem findContainer_append_none {cs ds : List ContainerRow} {p : Nat} {n : PyStr}
    (h : findContainer cs p n = none) :
    findContainer (cs ++ ds) p n = findContainer ds p n := by
  induction cs with
  | nil => simp
  | cons a t ih =>
    unfold findContainer at h ⊢
    by_cases ha : (a.parent_id == p && a.name == n && a.type == 1) = true
    · rw [find?_cons_pos' (fun r => r.parent_id == p && r.name == n && r.type == 1) a t ha]
        at h
      exact absurd h (by simp)
    · rw [find?_cons_neg' (fun r => r.parent_id == p && r.name == n && r.type == 1) a t ha]
        at h
      rw [List.cons_append,
        find?_cons_neg' (fun r => r.parent_id == p && r.name == n && r.type == 1) a
          (t ++ ds) ha]
      exact ih h

theorem findContainer_inserted (st : LibraryDb) (parent_id : Nat) (n : PyStr)
    (list_order now : Nat) (uri : PyStr)
    (h : findContainer st.containers parent_id n = none) :
    findContainer (st.containers ++
        [⟨st.next_rowid, st.revision + 1, parent_id, n, 1, list_order, now, 0, uri⟩])
        parent_id n
      = some ⟨st.next_rowid, st.revision + 1, parent_id, n, 1, list_order, now, 0, uri⟩ := by
  rw [findContainer_append_none h]
  simp [findContainer, List.find?]

/-! ## The writer only ever appends container rows -/

mutual

theorem create_crate_recursive_append (cp : CratePlan) :
    ∀ (st : LibraryDb) (parent_id : Nat) (pre : PyStr) (list_order : Nat)
      (delim : PyStr) (now : Nat),
      ∃ new, (create_crate_recursive st cp parent_id pre list_order delim now).st.containers
        = st.containers ++ new := by
  cases cp with
  | mk n pa pn tr children =>
    intro st parent_id pre list_order delim now
    cases hf : findContainer st.containers parent_id n with
    | some r =>
      obtain ⟨new, hnew⟩ := create_crate_children_append children st r.id
        (displayNameOf pre delim n) 1 delim now
      exact ⟨new, by simp only [create_crate_recursive, hf]; exact hnew⟩
    | none =>
      obtain ⟨new2, hnew2⟩ := create_crate_children_append children
        ⟨st.containers ++
          [⟨st.next_rowid, st.revision + 1, parent_id, n, 1, list_order, now, 0,
            crateUri (displayNameOf pre delim n)⟩],
         st.revision + 1, st.next_rowid + 1⟩
        st.next_rowid (displayNameOf pre delim n) 1 delim now
      refine ⟨⟨st.next_rowid, st.revision + 1, parent_id, n, 1, list_order, now, 0,
        crateUri (displayNameOf pre delim n)⟩ :: new2, ?_⟩
      simp only [create_crate_recursive, hf]
      rw [hnew2]
      simp

theorem create_crate_children_append (cs : List CratePlan) :
    ∀ (st : LibraryDb) (parent_id : Nat) (pre : PyStr) (child_order : Nat)
      (delim : PyStr) (now : Nat),
      ∃ new, (create_crate_children st cs parent_id pre child_order delim now).st.containers
        = st.containers ++ new := by
  cases cs with
  | nil =>
    intro st parent_id pre child_order delim now
    exact ⟨[], by simp [create_crate_children]⟩
  | cons c rest =>
    intro st parent_id pre child_order delim now
    obtain ⟨n1, h1⟩ := create_crate_recursive_append c st parent_id pre child_order delim now
    obtain ⟨n2, h2⟩ := create_crate_children_append rest
      (create_crate_recursive st c parent_id pre child_order delim now).st
      parent_id pre (child_order + 1) delim now
    refine ⟨n1 ++ n2, ?_⟩
    simp only [create_crate_children]
    rw [h2, h1, List.append_assoc]

end

/-! ## Settledness is preserved by appending rows -/

mutual

theorem settled_append (cp : CratePlan) :
    ∀ (cs ds : List ContainerRow) (parent_id : Nat),
      settled cs cp parent_id → settled (cs ++ ds) cp parent_id := by
  cases cp with
  | mk n pa pn tr children =>
    intro cs ds parent_id h
    simp only [settled] at h ⊢
    cases hf : findContainer cs parent_id n with
    | none => rw [hf] at h; exact h.elim
    | some r =>
      rw [hf] at h
      rw [findContainer_append_some hf]
      exact settledChildren_append children cs ds r.id h

theorem settledChildren_append (l : List CratePlan) :
    ∀ (cs ds : List ContainerRow) (parent_id : Nat),
      settledChildren cs l parent_id → settledChildren (cs ++ ds) l parent_id := by
  cases l with
  | nil => intro cs ds parent_id h; trivial
  | cons c rest =>
    intro cs ds parent_id h
    simp only [settledChildren] at h ⊢
    exact ⟨settled_append c cs ds parent_id h.1,
      settledChildren_append rest cs ds parent_id h.2⟩

end

/-! ## After a run, every processed node is settled -/

mutual

theorem create_crate_recursive_settled (cp : CratePlan) :
    ∀ (st : LibraryDb) (parent_id : Nat) (pre : PyStr) (list_order : Nat)
      (delim : PyStr) (now : Nat),
      settled (create_crate_recursive st cp parent_id pre list_order delim now).st.containers
        cp parent_id := by
  cases cp with
  | mk n pa pn tr children =>
    intro st parent_id pre list_order delim now
    cases hf : findContainer st.containers parent_id n with
    | some r =>
      obtain ⟨new, hnew⟩ := create_crate_children_append children st r.id
        (displayNameOf pre delim n) 1 delim now
      have hs := create_crate_children_settled children st r.id
        (displayNameOf pre delim n) 1 delim now
      have hfind : findContainer
          (create_crate_children st children r.id (displayNameOf pre delim n)
            1 delim now).st.containers parent_id n = some r := by
        rw [hnew]
        exact findContainer_append_some hf
      simp only [create_crate_recursive, hf, settled]
      rw [hfind]
      exact hs
    | none =>
      obtain ⟨new, hnew⟩ := create_crate_children_append children
        ⟨st.containers ++
          [⟨st.next_rowid, st.revision + 1, parent_id, n, 1, list_order, now, 0,
            crateUri (displayNameOf pre delim n)⟩],
         st.revision + 1, st.next_rowid + 1⟩
        st.next_rowid (displayNameOf pre delim n) 1 delim now
      have hs := create_crate_children_settled children
        ⟨st.containers ++
          [⟨st.next_rowid, st.revision + 1, parent_id, n, 1, list_order, now, 0,
            crateUri (displayNameOf pre delim n)⟩],
         st.revision + 1, st.next_rowid + 1⟩
        st.next_rowid (displayNameOf pre delim n) 1 delim now
      have hnewA : (create_crate_children
            ⟨st.containers ++
              [⟨st.next_rowid, st.revision + 1, parent_id, n, 1, list_order, now, 0,
                crateUri (displayNameOf pre delim n)⟩],
             st.revision + 1, st.next_rowid + 1⟩
            children st.next_rowid (displayNameOf pre delim n) 1 delim now).st.containers
          = (st.containers ++
              [⟨st.next_rowid, st.revision + 1, parent_id, n, 1, list_order, now, 0,
                crateUri (displayNameOf pre delim n)⟩]) ++ new := hnew
      have hfind : findContainer
          (create_crate_children
            ⟨st.containers ++
              [⟨st.next_rowid, st.revision + 1, parent_id, n, 1, list_order, now, 0,
                crateUri (displayNameOf pre delim n)⟩],
             st.revision + 1, st.next_rowid + 1⟩
            children st.next_rowid (displayNameOf pre delim n) 1 delim now).st.containers
          parent_id n
          = some ⟨st.next_rowid, st.revision + 1, parent_id, n, 1, list_order, now, 0,
              crateUri (displayNameOf pre delim n)⟩ := by
        rw [hnewA, List.append_assoc, findContainer_append_none hf]
        exact find?_cons_pos'
          (fun r => r.parent_id == parent_id && r.name == n && r.type == 1)
          ⟨st.next_rowid, st.revision + 1, parent_id, n, 1, list_order, now, 0,
            crateUri (displayNameOf pre delim n)⟩ new (by simp)
      simp only [create_crate_recursive, hf, settled]
      rw [hfind]
      exact hs

theorem create_crate_children_settled (cs : List CratePlan) :
    ∀ (st : LibraryDb) (parent_id : Nat) (pre : PyStr) (child_order : Nat)
      (delim : PyStr) (now : Nat),
      settledChildren
        (create_crate_children st cs parent_id pre child_order delim now).st.containers
        cs parent_id := by
  cases cs with
  | nil => intro st parent_id pre child_order delim now; trivial
  | cons c rest =>
    intro st parent_id pre child_order delim now
    obtain ⟨new, hnew⟩ := create_crate_children_append rest
      (create_crate_recursive st c parent_id pre child_order delim now).st
      parent_id pre (child_order + 1) delim now
    have h1 := create_crate_recursive_settled c st parent_id pre child_order delim now
    have h2 := create_crate_children_settled rest
      (create_crate_recursive st c parent_id pre child_order delim now).st
      parent_id pre (child_order + 1) delim now
    simp only [create_crate_children, settledChildren]
    exact ⟨by rw [hnew]; exact settled_append c _ new parent_id h1, h2⟩

end

/-! ## A settled node is skipped without any modification -/

mutual

theorem create_crate_recursive_noop (cp : CratePlan) :
    ∀ (st : LibraryDb) (parent_id : Nat) (pre : PyStr) (list_order : Nat)
      (delim : PyStr) (now : Nat),
      settled st.containers cp parent_id →
      (create_crate_recursive st cp parent_id pre list_order delim now).st = st ∧
      (create_crate_recursive st cp parent_id pre list_order delim now).created = 0 ∧
      (create_crate_recursive st cp parent_id pre list_order delim now).skipped
        = (countCrate cp).1 := by
  cases cp with
  | mk n pa pn tr children =>
    intro st parent_id pre list_order delim now h
    simp only [settled] at h
    cases hf : findContainer st.containers parent_id n with
    | none => rw [hf] at h; exact h.elim
    | some r =>
      rw [hf] at h
      obtain ⟨h1, h2, h3⟩ := create_crate_children_noop children st r.id
        (displayNameOf pre delim n) 1 delim now h
      simp only [create_crate_recursive, hf]
      refine ⟨h1, h2, ?_⟩
      simp only [countCrate, h3]
      omega

theorem create_crate_children_noop (cs : List CratePlan) :
    ∀ (st : LibraryDb) (parent_id : Nat) (pre : PyStr) (child_order : Nat)
      (delim : PyStr) (now : Nat),
      settledChildren st.containers cs parent_id →
      (create_crate_children st cs parent_id pre child_order delim now).st = st ∧
      (create_crate_children st cs parent_id pre child_order delim now).created = 0 ∧
      (create_crate_children st cs parent_id pre child_order delim now).skipped
        = (countCrateList cs).1 := by
  cases cs with
  | nil =>
    intro st parent_id pre child_order delim now h
    exact ⟨rfl, rfl, rfl⟩
  | cons c rest =>
    intro st parent_id pre child_order delim now h
    simp only [settledChildren] at h
    obtain ⟨ha, hb, hc⟩ := create_crate_recursive_noop c st parent_id pre child_order
      delim now h.1
    simp only [create_crate_children, ha]
    obtain ⟨hd, he, hg⟩ := create_crate_children_noop rest st parent_id pre
      (child_order + 1) delim now h.2
    refine ⟨hd, ?_, ?_⟩
    · simp [hb, he]
    · simp only [countCrateList, hc, hg]

end

/-! ## The top-level loop of the writer -/

theorem sync_loop_append (cs : List CratePlan) :
    ∀ (st : LibraryDb) (next_order : Nat) (delim : PyStr) (now : Nat),
      ∃ new, (sync_loop st cs next_order delim now).st.containers
        = st.containers ++ new := by
  induction cs with
  | nil =>
    intro st next_order delim now
    exact ⟨[], by simp [sync_loop]⟩
  | cons c rest ih =>
    intro st next_order delim now
    obtain ⟨n1, h1⟩ := create_crate_recursive_append c st 0 [] next_order delim now
    obtain ⟨n2, h2⟩ := ih (create_crate_recursive st c 0 [] next_order delim now).st
      (next_order + 1) delim now
    refine ⟨n1 ++ n2, ?_⟩
    simp only [sync_loop]
    rw [h2, h1, List.append_assoc]

theorem sync_loop_settled (cs : List CratePlan) :
    ∀ (st : LibraryDb) (next_order : Nat) (delim : PyStr) (now : Nat),
      settledChildren (sync_loop st cs next_order delim now).st.containers cs 0 := by
  induction cs with
  | nil => intro st next_order delim now; trivial
  | cons c rest ih =>
    intro st next_order delim now
    obtain ⟨new, hnew⟩ := sync_loop_append rest
      (create_crate_recursive st c 0 [] next_order delim now).st
      (next_order + 1) delim now
    have h1 := create_crate_recursive_settled c st 0 [] next_order delim now
    have h2 := ih (create_crate_recursive st c 0 [] next_order delim now).st
      (next_order + 1) delim now
    simp only [sync_loop, settledChildren]
    exact ⟨by rw [hnew]; exact settled_append c _ new 0 h1, h2⟩

theorem sync_loop_noop (cs : List CratePlan) :
    ∀ (st : LibraryDb) (next_order : Nat) (delim : PyStr) (now : Nat),
      settledChildren st.containers cs 0 →
      (sync_loop st cs next_order delim now).st = st ∧
      (sync_loop st cs next_order delim now).created = 0 ∧
      (sync_loop st cs next_order delim now).skipped = (countCrateList cs).1 := by
  induction cs with
  | nil =>
    intro st next_order delim now h
    exact ⟨rfl, rfl, rfl⟩
  | cons c rest ih =>
    intro st next_order delim now h
    simp only [settledChildren] at h
    obtain ⟨ha, hb, hc⟩ := create_crate_recursive_noop c st 0 [] next_order delim now h.1
    simp only [sync_loop, ha]
    obtain ⟨hd, he, hg⟩ := ih st (next_order + 1) delim now h.2
    refine ⟨hd, ?_, ?_⟩
    · simp [hb, he]
    · simp only [countCrateList, hc, hg]

/-! ## Claim C3: transaction-like behaviour of the writer -/

/-- Claim C3: the relational write is all-or-nothing.  Either nothing is
committed and both counts are zero (missing database file, or any failure
during the run), or the failure flag is off and the whole run — every
inserted row and the revision update — commits together at the end. -/
theorem write_crates_transactional (db : Option LibraryDb) (crates : List CratePlan)
    (delim : PyStr) (now : Nat) (failure : Bool) :
    write_crates_to_sqlite none crates delim now failure = (none, 0, 0) ∧
    ((write_crates_to_sqlite db crates delim now failure = (db, 0, 0)) ∨
      (failure = false ∧ ∃ d, db = some d ∧
        write_crates_to_sqlite db crates delim now failure
          = (some (runSync d crates delim now).st, (runSync d crates delim now).created,
              (runSync d crates delim now).skipped))) := by
  refine ⟨rfl, ?_⟩
  cases db with
  | none => exact Or.inl rfl
  | some d =>
    cases failure with
    | true => exact Or.inl rfl
    | false => exact Or.inr ⟨rfl, d, rfl, rfl⟩

/-! ## Claim C5: idempotence of the relational writer -/

/-- Claim C5: re-running the writer with the same plan on the database state
produced by a first successful run creates nothing, skips every node of the
plan, and leaves the database (hence the row count under every parent)
unchanged. -/
theorem write_crates_to_sqlite_idempotent
    (d : LibraryDb) (crates : List CratePlan) (delim : PyStr) (now now' : Nat)
    (d₁ : LibraryDb) (c₁ s₁ : Nat)
    (h : write_crates_to_sqlite (some d) crates delim now false = (some d₁, c₁, s₁)) :
    write_crates_to_sqlite (some d₁) crates delim now' false
      = (some d₁, 0, (count_crates_and_tracks crates).1) := by
  have hd1 : (runSync d crates delim now).st = d₁ := by
    simp only [write_crates_to_sqlite, Bool.false_eq_true, if_false] at h
    have := congrArg (fun z : Option LibraryDb × Nat × Nat => z.1) h
    simpa using this
  have hset : settledChildren d₁.containers crates 0 := by
    rw [← hd1]
    exact sync_loop_settled crates d (maxRootListOrder d.containers + 1) delim now
  obtain ⟨ha, hb, hc⟩ := sync_loop_noop crates d₁
    (maxRootListOrder d₁.containers + 1) delim now' hset
  simp only [write_crates_to_sqlite, Bool.false_eq_true, if_false, runSync]
  rw [ha, hb, hc]
  rfl

/-- Witness for C5: a fresh database, one single-crate plan; the second run
returns the first run's state unchanged with zero created and one skipped. -/
theorem write_crates_to_sqlite_idempotent_w :
    write_crates_to_sqlite
        (some ⟨[⟨1, 6, 0, ['A'], 1, 1, 3, 0, "crate://".toList ++ ['A']⟩], 6, 2⟩)
        [CratePlan.mk ['A'] [] none [] []] ['%', '%'] 7 false
      = (some ⟨[⟨1, 6, 0, ['A'], 1, 1, 3, 0, "crate://".toList ++ ['A']⟩], 6, 2⟩, 0, 1) :=
  write_crates_to_sqlite_idempotent ⟨[], 5, 1⟩ [CratePlan.mk ['A'] [] none [] []]
    ['%', '%'] 3 7 ⟨[⟨1, 6, 0, ['A'], 1, 1, 3, 0, "crate://".toList ++ ['A']⟩], 6, 2⟩ 1 0
    (by decide)

/-! ## Claim C6: existing crates are reused, skipped, and left unmodified -/

/-- Claim C6: when the `(parent_id, name, type=1)` lookup finds a row, that
lookup is an exact match; the node is processed by handing the found row's id
to its children with the skipped counter bumped by one and the created
counter untouched for this node; and the container table is only ever
appended to, so no column of any existing row (the found one included) is
modified. -/
theorem create_crate_recursive_existing (st : LibraryDb) (cp : CratePlan)
    (parent_id : Nat) (pre : PyStr) (list_order : Nat) (delim : PyStr) (now : Nat)
    (r : ContainerRow) (h : findContainer st.containers parent_id cp.name = some r) :
    (r.parent_id = parent_id ∧ r.name = cp.name ∧ r.type = 1) ∧
    create_crate_recursive st cp parent_id pre list_order delim now
      = ⟨(create_crate_children st cp.children r.id (displayNameOf pre delim cp.name)
            1 delim now).st,
         (create_crate_children st cp.children r.id (displayNameOf pre delim cp.name)
            1 delim now).created,
         (create_crate_children st cp.children r.id (displayNameOf pre delim cp.name)
            1 delim now).skipped + 1,
         r.id⟩ ∧
    ∃ new, (create_crate_recursive st cp parent_id pre list_order delim now).st.containers
      = st.containers ++ new := by
  refine ⟨findContainer_exact h, ?_, create_crate_recursive_append cp st parent_id pre
    list_order delim now⟩
  cases cp with
  | mk n pa pn tr children =>
    simp only [CratePlan.name] at h
    simp only [create_crate_recursive, CratePlan.children, CratePlan.name, h]

/-- Witness for C6 on a database already containing the row being synced. -/
theorem create_crate_recursive_existing_w :
    ∃ new,
      (create_crate_recursive ⟨[⟨1, 4, 0, ['A'], 1, 1, 0, 0, []⟩], 10, 2⟩
          (CratePlan.mk ['A'] [] none [] []) 0 [] 9 ['%', '%'] 11).st.containers
        = [⟨1, 4, 0, ['A'], 1, 1, 0, 0, []⟩] ++ new :=
  (create_crate_recursive_existing ⟨[⟨1, 4, 0, ['A'], 1, 1, 0, 0, []⟩], 10, 2⟩
    (CratePlan.mk ['A'] [] none [] []) 0 [] 9 ['%', '%'] 11
    ⟨1, 4, 0, ['A'], 1, 1, 0, 0, []⟩ (by decide)).2.2

/-! ## Claim C7: clean only after backup, with overwrite forced -/

/-- Claim C7: with the clean flag set, a backup failure propagates before any
deletion can happen, and on success the action trace is exactly backup, then
the Subcrates mkdir, then the clean step, then the write step — whose
overwrite flag is `true` for either value of the caller's overwrite flag. -/
theorem execute_sync_clean_after_backup (env : ExecEnv) (ow : Bool) :
    (∀ e, env.backupResult = Except.error e →
      execute_sync env ow true = Except.error e) ∧
    (∀ p, env.backupResult = Except.ok p →
      execute_sync env ow true = Except.ok (true,
        [SyncAction.backup, SyncAction.mkdirSubcrates, SyncAction.clean env.cleanDeleted,
         SyncAction.write true (env.writeCounts true).1 (env.writeCounts true).2])) := by
  constructor
  · intro e he
    simp [execute_sync, he]
  · intro p hp
    simp [execute_sync, hp]

/-- Witness for C7 with both values of the caller's overwrite flag forced to
a `true` write flag by clean. -/
theorem execute_sync_clean_after_backup_w :
    execute_sync ⟨Except.ok none, 3, fun _ => (2, 1)⟩ false true
      = Except.ok (true,
          [SyncAction.backup, SyncAction.mkdirSubcrates, SyncAction.clean 3,
           SyncAction.write true 2 1]) :=
  (execute_sync_clean_after_backup ⟨Except.ok none, 3, fun _ => (2, 1)⟩ false).2 none rfl

/-! ## Claim C10: the orchestrator's success flag is constant -/

/-- Claim C10: whenever `execute_sync` returns normally, the returned boolean
is `true`, for every environment and every combination of the overwrite and
clean flags — the flag never reports failure. -/
theorem execute_sync_returns_true (env : ExecEnv) (ow cl b : Bool)
    (acts : List SyncAction) (h : execute_sync env ow cl = Except.ok (b, acts)) :
    b = true := by
  unfold execute_sync at h
  cases hb : env.backupResult with
  | error e =>
    rw [hb] at h
    exact absurd h (by simp)
  | ok p =>
    rw [hb] at h
    simp only [Except.ok.injEq, Prod.mk.injEq] at h
    exact h.1.symm

/-- Witness for C10 on a concrete environment (no overwrite, no clean). -/
theorem execute_sync_returns_true_w :
    execute_sync ⟨Except.ok none, 0, fun _ => (0, 0)⟩ false false
        = Except.ok (true, [SyncAction.backup, SyncAction.mkdirSubcrates,
            SyncAction.write false 0 0]) ∧
      (true : Bool) = true :=
  ⟨rfl, execute_sync_returns_true ⟨Except.ok none, 0, fun _ => (0, 0)⟩ false false true
    [SyncAction.backup, SyncAction.mkdirSubcrates, SyncAction.write false 0 0] rfl⟩

end SeratoSync
